import Mathlib

/-!
Verification of the pomodoro engine (`engine/timer.go`, `engine/clock.go`)
of the `pomo` repository, as a shallow embedding in Lean.

Modelling conventions:
* Go `time.Duration` and `time.Time` are 64-bit integer nanosecond counts;
  they are embedded as `Int` (overflow never matters for the claims below,
  which are about exact integer arithmetic, comparisons and control flow).
* Go `int` fields (`LongBreakEvery`, `TotalCycles`, the session counters)
  are embedded as `Int`; the Go truncating integer division `/` is
  `Int.tdiv` and Go `%` is `Int.tmod`.
* `float64` arithmetic occurs only in the `Fraction` field of an event,
  always of the form `float64(elapsed)/float64(duration)` followed by a
  clamp at `1.0`; it is embedded as exact rational division `ℚ`, which
  agrees with IEEE semantics on every sign/ordering fact used below.
* Methods that mutate their receiver become functions returning the new
  state; methods that only read become plain functions.
-/

namespace Pomo

/-- `Phase` from `timer.go`: `PhaseWork`, `PhaseShortBreak`,
`PhaseLongBreak`, `PhaseDone`. -/
inductive Phase where
  | Work
  | ShortBreak
  | LongBreak
  | Done
deriving DecidableEq, Repr

/-- `Config` from `timer.go`. Durations are nanosecond counts. -/
structure Config where
  WorkDuration : Int
  ShortBreakDuration : Int
  LongBreakDuration : Int
  LongBreakEvery : Int
  TotalCycles : Int
deriving DecidableEq, Repr

/-- `Session` from `timer.go`. -/
structure Session where
  config : Config
  currentPhase : Phase
  cyclesComplete : Int
  totalPhases : Int
  phasesComplete : Int
deriving DecidableEq, Repr

/-- `Session.calculateTotalPhases` from `timer.go`.  The Go `/` on `int`
truncates toward zero, hence `Int.tdiv`. -/
def Session.calculateTotalPhases (s : Session) : Int :=
  if s.config.TotalCycles = 0 then 0
  else
    let cycles := s.config.TotalCycles
    let phases := cycles
    if 0 < s.config.LongBreakEvery then
      let longBreaks := Int.tdiv (cycles - 1) s.config.LongBreakEvery
      let shortBreaks := cycles - 1 - longBreaks
      phases + (longBreaks + shortBreaks)
    else
      phases + (cycles - 1)

/-- `NewSession` from `timer.go`: counters start at zero, current phase is
`Work`, and `totalPhases` is precomputed by `calculateTotalPhases`. -/
def NewSession (cfg : Config) : Session :=
  let s : Session :=
    { config := cfg
      currentPhase := Phase.Work
      cyclesComplete := 0
      totalPhases := 0
      phasesComplete := 0 }
  { s with totalPhases := s.calculateTotalPhases }

/-- `Session.CurrentPhase`. -/
def Session.CurrentPhase (s : Session) : Phase := s.currentPhase

/-- `Session.CyclesComplete`. -/
def Session.CyclesComplete (s : Session) : Int := s.cyclesComplete

/-- `Session.TotalCycles`. -/
def Session.TotalCycles (s : Session) : Int := s.config.TotalCycles

/-- `Session.TotalPhases`. -/
def Session.TotalPhases (s : Session) : Int := s.totalPhases

/-- `Session.PhasesComplete`. -/
def Session.PhasesComplete (s : Session) : Int := s.phasesComplete

/-- `Session.PhaseDuration` from `timer.go`. -/
def Session.PhaseDuration (s : Session) : Int :=
  match s.currentPhase with
  | Phase.Work => s.config.WorkDuration
  | Phase.ShortBreak => s.config.ShortBreakDuration
  | Phase.LongBreak => s.config.LongBreakDuration
  | Phase.Done => 0

/-- `Session.NextPhase` from `timer.go`, returning the updated session
together with the returned phase.  Go `%` is `Int.tmod`.  The `Done` arm
of the inner match is unreachable (guarded by the first test) and mirrors
the Go `switch` falling through with no case selected. -/
def Session.NextPhase (s : Session) : Session × Phase :=
  if s.currentPhase = Phase.Done then (s, Phase.Done)
  else
    let s1 : Session := { s with phasesComplete := s.phasesComplete + 1 }
    match s1.currentPhase with
    | Phase.Work =>
      let s2 : Session := { s1 with cyclesComplete := s1.cyclesComplete + 1 }
      if 0 < s2.config.TotalCycles ∧ s2.config.TotalCycles ≤ s2.cyclesComplete then
        ({ s2 with currentPhase := Phase.Done }, Phase.Done)
      else if 0 < s2.config.LongBreakEvery ∧
          Int.tmod s2.cyclesComplete s2.config.LongBreakEvery = 0 then
        ({ s2 with currentPhase := Phase.LongBreak }, Phase.LongBreak)
      else
        ({ s2 with currentPhase := Phase.ShortBreak }, Phase.ShortBreak)
    | Phase.ShortBreak =>
      ({ s1 with currentPhase := Phase.Work }, Phase.Work)
    | Phase.LongBreak =>
      ({ s1 with currentPhase := Phase.Work }, Phase.Work)
    | Phase.Done => (s1, s1.currentPhase)

/-- Divisibility matches the Go test `x % y == 0` (`Int.tmod`). -/
theorem tmod_eq_zero_iff_dvd (a b : Int) : Int.tmod a b = 0 ↔ b ∣ a :=
  ⟨fun h => Int.dvd_of_tmod_eq_zero h, fun h => Int.tmod_eq_zero_of_dvd h⟩

end Pomo

namespace Pomo

/-- C1: the total-phase count computed at `Session` construction equals
`0` when `TotalCycles = 0`, and otherwise
`C + longBreaks + shortBreaks` with `longBreaks = ⌊(C-1)/F⌋` and
`shortBreaks = (C-1) - longBreaks` when `F > 0`, and `longBreaks = 0`,
`shortBreaks = C-1` when `F = 0`. -/
theorem C1_totalPhases (cfg : Config) (hF : 0 ≤ cfg.LongBreakEvery) :
    (NewSession cfg).totalPhases =
      if cfg.TotalCycles = 0 then 0
      else if 0 < cfg.LongBreakEvery then
        cfg.TotalCycles + Int.fdiv (cfg.TotalCycles - 1) cfg.LongBreakEvery +
          (cfg.TotalCycles - 1 - Int.fdiv (cfg.TotalCycles - 1) cfg.LongBreakEvery)
      else
        cfg.TotalCycles + 0 + (cfg.TotalCycles - 1) := by
  rcases eq_or_ne cfg.TotalCycles 0 with h0 | h0
  · simp [NewSession, Session.calculateTotalPhases, h0]
  · rcases lt_or_le 0 cfg.LongBreakEvery with hpos | hnonpos
    · simp only [NewSession, Session.calculateTotalPhases, if_neg h0, if_pos hpos]
      ring
    · have hz : cfg.LongBreakEvery = 0 := le_antisymm hnonpos hF
      simp only [NewSession, Session.calculateTotalPhases, if_neg h0, hz]
      norm_num

/-- Witness for C1 at the concrete configuration
`{work 1, short 1, long 1, every 2, cycles 4}`: total phases `7`. -/
theorem C1_totalPhases_witness :
    (0 : Int) ≤ (2 : Int) ∧
      (NewSession ⟨1, 1, 1, 2, 4⟩).totalPhases =
        if (4 : Int) = 0 then 0
        else if (0 : Int) < 2 then
          4 + Int.fdiv (4 - 1) 2 + (4 - 1 - Int.fdiv (4 - 1) 2)
        else 4 + 0 + (4 - 1) :=
  ⟨by decide, C1_totalPhases ⟨1, 1, 1, 2, 4⟩ (by decide)⟩

/-- C2: `NextPhase` from `Work` increments the completed-cycle count and
transitions to `Done` when a positive total-cycle bound has been reached
(in particular after the `C`-th work-cycle completion, never to a break);
otherwise it yields `LongBreak` exactly when the long-break frequency is
positive and the new completed-cycle count is an exact multiple of it,
else `ShortBreak`.  From `ShortBreak` or `LongBreak` it transitions to
`Work`.  Every call not starting from `Done` increments the
completed-phase count by exactly one. -/
theorem C2_nextPhase (s : Session) :
    (s.currentPhase = Phase.Work →
      (s.NextPhase).1.cyclesComplete = s.cyclesComplete + 1 ∧
      (0 < s.config.TotalCycles ∧ s.config.TotalCycles ≤ s.cyclesComplete + 1 →
        (s.NextPhase).2 = Phase.Done) ∧
      (¬(0 < s.config.TotalCycles ∧ s.config.TotalCycles ≤ s.cyclesComplete + 1) →
        ((s.NextPhase).2 = Phase.LongBreak ↔
          0 < s.config.LongBreakEvery ∧
            s.config.LongBreakEvery ∣ (s.cyclesComplete + 1)) ∧
        ((s.NextPhase).2 = Phase.LongBreak ∨ (s.NextPhase).2 = Phase.ShortBreak))) ∧
    ((s.currentPhase = Phase.ShortBreak ∨ s.currentPhase = Phase.LongBreak) →
      (s.NextPhase).2 = Phase.Work) ∧
    (s.currentPhase ≠ Phase.Done →
      (s.NextPhase).1.phasesComplete = s.phasesComplete + 1) := by
  refine ⟨?_, ?_, ?_⟩
  · intro hw
    simp only [Session.NextPhase, hw, reduceCtorEq, if_false]
    refine ⟨?_, ?_, ?_⟩
    · split_ifs <;> rfl
    · intro hreach
      rw [if_pos hreach]
    · intro hnot
      rw [if_neg hnot]
      rw [← tmod_eq_zero_iff_dvd]
      split_ifs with hlb
      · simp [hlb]
      · simp [hlb]
  · rintro (hb | hb) <;> simp [Session.NextPhase, hb]
  · intro hnd
    cases hp : s.currentPhase <;>
      simp only [Session.NextPhase, hp, reduceCtorEq, if_false] <;>
      first
        | (split_ifs <;> rfl)
        | rfl
        | simp_all

/-- Witness for C2: from `Work` with 1 completed cycle, frequency 2 and
bound 3, the next phase is `LongBreak` (completed count 2 is a multiple
of 2 and has not reached the bound 3). -/
theorem C2_nextPhase_witness :
    (Session.NextPhase ⟨⟨60, 10, 30, 2, 3⟩, Phase.Work, 1, 5, 2⟩).2 =
      Phase.LongBreak :=
  (((C2_nextPhase ⟨⟨60, 10, 30, 2, 3⟩, Phase.Work, 1, 5, 2⟩).1 rfl).2.2
    (by decide)).1.mpr (by decide)

/-- C6: `NextPhase` on a session whose current phase is `Done` returns
`Done` and leaves the whole session state unchanged. -/
theorem C6_done_idempotent (s : Session) (h : s.currentPhase = Phase.Done) :
    s.NextPhase = (s, Phase.Done) := by
  simp [Session.NextPhase, h]

/-- Witness for C6 at a concrete terminal session. -/
theorem C6_done_idempotent_witness :
    (⟨⟨60, 10, 30, 4, 2⟩, Phase.Done, 2, 5, 3⟩ : Session).currentPhase =
        Phase.Done ∧
      Session.NextPhase ⟨⟨60, 10, 30, 4, 2⟩, Phase.Done, 2, 5, 3⟩ =
        (⟨⟨60, 10, 30, 4, 2⟩, Phase.Done, 2, 5, 3⟩, Phase.Done) :=
  ⟨rfl, C6_done_idempotent _ rfl⟩

/-- Helper: `NextPhase` leaves the configuration untouched. -/
theorem nextPhase_config (s : Session) : (s.NextPhase).1.config = s.config := by
  cases hp : s.currentPhase <;>
    simp only [Session.NextPhase, hp, reduceCtorEq, if_false, if_true] <;>
    first
      | (split_ifs <;> rfl)
      | rfl
      | simp

/-- Helper: `NextPhase` leaves the precomputed total-phase count untouched. -/
theorem nextPhase_totalPhases (s : Session) :
    (s.NextPhase).1.totalPhases = s.totalPhases := by
  cases hp : s.currentPhase <;>
    simp only [Session.NextPhase, hp, reduceCtorEq, if_false, if_true] <;>
    first
      | (split_ifs <;> rfl)
      | rfl
      | simp

/-- Helper: away from `Done`, `NextPhase` increments the completed-phase
count by one. -/
theorem nextPhase_phasesComplete (s : Session) (h : s.currentPhase ≠ Phase.Done) :
    (s.NextPhase).1.phasesComplete = s.phasesComplete + 1 := by
  cases hp : s.currentPhase <;>
    simp only [Session.NextPhase, hp, reduceCtorEq, if_false] <;>
    first
      | (split_ifs <;> rfl)
      | rfl
      | simp_all

/-- Helper: from `Work`, `NextPhase` increments the completed-cycle count. -/
theorem nextPhase_cyclesComplete (s : Session) (h : s.currentPhase = Phase.Work) :
    (s.NextPhase).1.cyclesComplete = s.cyclesComplete + 1 := by
  simp only [Session.NextPhase, h, reduceCtorEq, if_false]
  split_ifs <;> rfl

/-- C7: after construction the stored configuration and the precomputed
total-phase count are never modified: `NextPhase` preserves both (it
touches only `currentPhase`, `cyclesComplete` and `phasesComplete`); the
remaining operations (`PhaseDuration` and the getters) are embedded as
pure functions because their Go bodies contain no assignment. -/
theorem C7_frame (s : Session) :
    (s.NextPhase).1.config = s.config ∧
      (s.NextPhase).1.totalPhases = s.totalPhases := by
  cases hp : s.currentPhase <;>
    simp only [Session.NextPhase, hp, reduceCtorEq, if_false, if_true] <;>
    first
      | (constructor <;> split_ifs <;> rfl)
      | exact ⟨rfl, rfl⟩
      | simp

/-!
## The timer event loop (`Timer.Run` / `Timer.runPhase` in `timer.go`)

Modelling of the impure parts of `runPhase`:
* The clock is abstracted by the stream `nows : Nat → Int` of values that
  successive `clock.Now()` calls return during one phase: `nows 0` is the
  reading taken for `start`, and loop iteration `k` (0-based) reads
  `nows (k + 1)`.  A real or mock clock yields a monotone stream; the
  theorems quantify over arbitrary streams and state monotonicity where
  the claim assumes it.  The ticker only paces the loop, which is already
  captured by the arbitrary choice of the stream.
* Each loop iteration has two suspension points, in order: the `select`
  sending the event (index `2k`) and the `select` waiting for the tick
  (index `2k + 1`).  `cancel i = true` means that at suspension point `i`
  the `ctx.Done()` branch of the `select` is taken, upon which the code
  returns `ctx.Err()`; `false` means the send/tick branch is taken.
* The Go loops have no bound, so the embedding takes a fuel argument;
  `none` means the fuel ran out with the loop still running, and every
  theorem about results is stated conditionally on a `some` result.
* The event channel is represented by the list of events actually handed
  to the consumer, in order; `close(events)` (run via `defer` on every
  return path of `Run`) is the `closed` flag of the run output.
-/

/-- Outcome of `Timer.runPhase`: `completed` is a `nil` error,
`cancelled` is `ctx.Err()`. -/
inductive PhaseOutcome where
  | completed
  | cancelled
deriving DecidableEq, Repr

/-- Outcome of `Timer.Run`: `success` is a `nil` error, `cancelled` is
the propagated `ctx.Err()`. -/
inductive RunResult where
  | success
  | cancelled
deriving DecidableEq, Repr

/-- `TimerEvent` from `timer.go`.  The field `phase` embeds the Go field
`Phase` (renamed to avoid clashing with the type name). -/
structure TimerEvent where
  phase : Phase
  Elapsed : Int
  Remaining : Int
  Total : Int
  Fraction : ℚ
  PhaseComplete : Bool
  CycleNum : Int
  TotalCycles : Int
  PhaseNum : Int
  TotalPhases : Int
deriving DecidableEq, Repr

/-- The event built by one iteration of the `runPhase` loop, including
the `remaining < 0` reset and the clamp of `Fraction` at `1.0`. -/
def mkEvent (s : Session) (duration elapsed : Int) : TimerEvent :=
  let remaining := if duration - elapsed < 0 then 0 else duration - elapsed
  let frac : ℚ := (elapsed : ℚ) / (duration : ℚ)
  { phase := s.CurrentPhase
    Elapsed := elapsed
    Remaining := remaining
    Total := duration
    Fraction := if 1 < frac then 1 else frac
    PhaseComplete := decide (duration ≤ elapsed)
    CycleNum := s.CyclesComplete + 1
    TotalCycles := s.TotalCycles
    PhaseNum := s.PhasesComplete + 1
    TotalPhases := s.TotalPhases }

/-- The `for` loop of `Timer.runPhase`, iteration `k` onwards.  Returns
the events emitted from iteration `k` on and the outcome, or `none` if
the fuel ran out. -/
def runPhaseAux (s : Session) (duration start : Int) (nows : Nat → Int)
    (cancel : Nat → Bool) : Nat → Nat → Option (List TimerEvent × PhaseOutcome)
  | 0, _ => none
  | fuel + 1, k =>
    if cancel (2 * k) then some ([], PhaseOutcome.cancelled)
    else if duration ≤ nows (k + 1) - start then
      some ([mkEvent s duration (nows (k + 1) - start)], PhaseOutcome.completed)
    else if cancel (2 * k + 1) then
      some ([mkEvent s duration (nows (k + 1) - start)], PhaseOutcome.cancelled)
    else
      match runPhaseAux s duration start nows cancel fuel (k + 1) with
      | none => none
      | some (evts, r) =>
        some (mkEvent s duration (nows (k + 1) - start) :: evts, r)

/-- `Timer.runPhase` from `timer.go`: a zero phase duration returns
immediately with no events; otherwise `start := clock.Now()` (the stream
head) and the loop runs. -/
def runPhase (s : Session) (nows : Nat → Int) (cancel : Nat → Bool)
    (fuel : Nat) : Option (List TimerEvent × PhaseOutcome) :=
  if s.PhaseDuration = 0 then some ([], PhaseOutcome.completed)
  else runPhaseAux s s.PhaseDuration (nows 0) nows cancel fuel 0

/-- Result of `Timer.Run`: the events handed to the consumer in order,
the returned error (`success` = `nil`), the session after the run, and
whether the event channel was closed (`defer close(events)`). -/
structure RunOut where
  events : List TimerEvent
  result : RunResult
  finalSession : Session
  closed : Bool
deriving DecidableEq, Repr

/-- `Timer.Run` from `timer.go`.  `nows p` and `cancel p` are the clock
stream and the `select` resolutions of the `p`-th executed phase; `fuel`
bounds the number of iterations of the top-level loop and `phaseFuel`
the iterations of each phase loop. -/
def Run : Nat → (Nat → Nat → Int) → (Nat → Nat → Bool) → Nat → Session →
    Option RunOut
  | 0, _, _, _, _ => none
  | fuel + 1, nows, cancel, phaseFuel, s =>
    if s.CurrentPhase = Phase.Done then some ⟨[], RunResult.success, s, true⟩
    else
      match runPhase s (nows 0) (cancel 0) phaseFuel with
      | none => none
      | some (evts, PhaseOutcome.cancelled) =>
        some ⟨evts, RunResult.cancelled, s, true⟩
      | some (evts, PhaseOutcome.completed) =>
        match Run fuel (fun p => nows (p + 1)) (fun p => cancel (p + 1))
            phaseFuel (s.NextPhase).1 with
        | none => none
        | some out => some ⟨evts ++ out.events, out.result, out.finalSession,
            out.closed⟩

/-- Helper: a cancelled phase loop took some `ctx.Done()` branch. -/
theorem runPhaseAux_cancelled_exists (s : Session) (d st : Int)
    (nows : Nat → Int) (cancel : Nat → Bool) :
    ∀ fuel k evts,
      runPhaseAux s d st nows cancel fuel k = some (evts, PhaseOutcome.cancelled) →
      ∃ i, cancel i = true := by
  intro fuel
  induction fuel with
  | zero => intro k evts h; simp [runPhaseAux] at h
  | succ n ih =>
    intro k evts h
    simp only [runPhaseAux] at h
    split_ifs at h with h1 h2 h3
    · exact ⟨2 * k, h1⟩
    · simp at h
    · exact ⟨2 * k + 1, h3⟩
    · cases hm : runPhaseAux s d st nows cancel n (k + 1) with
      | none => rw [hm] at h; simp at h
      | some pr =>
        obtain ⟨evts2, r⟩ := pr
        rw [hm] at h
        cases r with
        | completed => simp at h
        | cancelled => exact ih (k + 1) evts2 hm

/-- Helper: a cancelled `runPhase` took some `ctx.Done()` branch. -/
theorem runPhase_cancelled_exists (s : Session) (nows : Nat → Int)
    (cancel : Nat → Bool) (fuel : Nat) (evts : List TimerEvent)
    (h : runPhase s nows cancel fuel = some (evts, PhaseOutcome.cancelled)) :
    ∃ i, cancel i = true := by
  rw [runPhase] at h
  split_ifs at h with hz
  · simp at h
  · exact runPhaseAux_cancelled_exists s _ _ nows cancel fuel 0 evts h

/-- Helper: when the first `select` already takes the `ctx.Done()` branch
and the phase has nonzero duration, the phase emits nothing and reports
cancellation. -/
theorem runPhase_first_cancel (s : Session) (nows : Nat → Int)
    (cancel : Nat → Bool) (fuel : Nat) (evts : List TimerEvent)
    (r : PhaseOutcome) (h : runPhase s nows cancel fuel = some (evts, r))
    (hc : cancel 0 = true) (hdur : s.PhaseDuration ≠ 0) :
    evts = [] ∧ r = PhaseOutcome.cancelled := by
  rw [runPhase, if_neg hdur] at h
  cases fuel with
  | zero => simp [runPhaseAux] at h
  | succ n =>
    have h0 : cancel (2 * 0) = true := by simpa using hc
    rw [runPhaseAux, if_pos h0] at h
    obtain ⟨h1, h2⟩ := Prod.mk.injEq .. ▸ Option.some.inj h
    exact ⟨h1.symm, h2.symm⟩

/-- C3 (amended): a completed `Timer.Run` returns success exactly when
the session ends in `Done`; the event stream is closed on every return
path; a cancellation outcome is returned only when some suspension point
took the `ctx.Done()` branch; and when cancellation is taken at every
suspension point and the first phase is a real (nonzero-duration) one,
the run emits no events and returns the cancellation outcome.  (The
original claim fails when no suspension point is ever reached: a run
whose phases all have zero duration completes successfully even though
cancellation is signaled, see the counterexample.) -/
theorem C3_run_outcome (fuel phaseFuel : Nat) (nows : Nat → Nat → Int)
    (cancel : Nat → Nat → Bool) (s : Session) (out : RunOut)
    (h : Run fuel nows cancel phaseFuel s = some out) :
    (out.result = RunResult.success ↔
      out.finalSession.CurrentPhase = Phase.Done) ∧
    out.closed = true ∧
    (out.result = RunResult.cancelled → ∃ p i, cancel p i = true) ∧
    ((∀ p i, cancel p i = true) → s.CurrentPhase ≠ Phase.Done →
      s.PhaseDuration ≠ 0 →
      out.events = [] ∧ out.result = RunResult.cancelled) := by
  induction fuel generalizing nows cancel s out with
  | zero => simp [Run] at h
  | succ n ih =>
    rw [Run] at h
    by_cases hd : s.CurrentPhase = Phase.Done
    · rw [if_pos hd] at h
      obtain rfl := Option.some.inj h
      exact ⟨by simpa using hd, rfl, fun hc => by simp at hc,
        fun _ hnd _ => absurd hd hnd⟩
    · rw [if_neg hd] at h
      cases hrp : runPhase s (nows 0) (cancel 0) phaseFuel with
      | none => rw [hrp] at h; simp at h
      | some pr =>
        obtain ⟨evts, r⟩ := pr
        rw [hrp] at h
        cases r with
        | cancelled =>
          obtain rfl := Option.some.inj h
          refine ⟨⟨fun hx => by simp at hx, fun hx => absurd hx hd⟩, rfl, ?_, ?_⟩
          · intro _
            obtain ⟨i, hi⟩ := runPhase_cancelled_exists _ _ _ _ _ hrp
            exact ⟨0, i, hi⟩
          · intro hall _ hdur
            exact ⟨(runPhase_first_cancel _ _ _ _ _ _ hrp (hall 0 0) hdur).1, rfl⟩
        | completed =>
          cases hr2 : Run n (fun p => nows (p + 1)) (fun p => cancel (p + 1))
              phaseFuel (s.NextPhase).1 with
          | none => rw [hr2] at h; simp at h
          | some out2 =>
            rw [hr2] at h
            obtain rfl := Option.some.inj h
            obtain ⟨ih1, ih2, ih3, _⟩ := ih _ _ _ _ hr2
            refine ⟨ih1, ih2, ?_, ?_⟩
            · intro hc
              obtain ⟨p, i, hi⟩ := ih3 hc
              exact ⟨p + 1, i, hi⟩
            · intro hall _ hdur
              have h2 := runPhase_first_cancel _ _ _ _ _ _ hrp (hall 0 0) hdur
              simp at h2

/-- C3 counterexample to the claim as stated: with every duration zero
and one total cycle, cancellation is signaled at every suspension point
(the schedule is constantly `true`), yet `Run` reaches `Done` without
ever meeting a suspension point and returns the success outcome. -/
theorem C3_counterexample :
    (∀ p i : Nat, (fun _ _ => true : Nat → Nat → Bool) p i = true) ∧
      Run 2 (fun _ _ => 0) (fun _ _ => true) 1 (NewSession ⟨0, 0, 0, 0, 1⟩) =
        some ⟨[], RunResult.success,
          ⟨⟨0, 0, 0, 0, 1⟩, Phase.Done, 1, 1, 1⟩, true⟩ :=
  ⟨fun _ _ => rfl, by decide⟩

/-- Witness for C3 at a concrete completed run. -/
theorem C3_run_outcome_witness :
    Run 2 (fun _ _ => 0) (fun _ _ => false) 1 (NewSession ⟨0, 0, 0, 0, 1⟩) =
        some ⟨[], RunResult.success,
          ⟨⟨0, 0, 0, 0, 1⟩, Phase.Done, 1, 1, 1⟩, true⟩ ∧
      RunOut.closed ⟨[], RunResult.success,
          ⟨⟨0, 0, 0, 0, 1⟩, Phase.Done, 1, 1, 1⟩, true⟩ = true :=
  ⟨by decide, (C3_run_outcome 2 1 (fun _ _ => 0) (fun _ _ => false)
    (NewSession ⟨0, 0, 0, 0, 1⟩) _ (by decide)).2.1⟩

/-- Helper: field bounds of a single event, for a positive duration and a
nonnegative elapsed time. -/
theorem mkEvent_bounds (s : Session) (d e : Int) (hd : 0 < d) (he : 0 ≤ e) :
    0 ≤ (mkEvent s d e).Fraction ∧ (mkEvent s d e).Fraction ≤ 1 ∧
      0 ≤ (mkEvent s d e).Remaining ∧ 0 ≤ (mkEvent s d e).Elapsed := by
  have hdq : (0 : ℚ) < (d : ℚ) := by exact_mod_cast hd
  have heq : (0 : ℚ) ≤ (e : ℚ) := by exact_mod_cast he
  have hfrac : (0 : ℚ) ≤ (e : ℚ) / (d : ℚ) := div_nonneg heq hdq.le
  refine ⟨?_, ?_, ?_, he⟩
  · simp only [mkEvent]
    split_ifs with h1
    · norm_num
    · exact hfrac
  · simp only [mkEvent]
    split_ifs with h1
    · exact le_refl 1
    · exact le_of_not_lt h1
  · simp only [mkEvent]
    split_ifs with h1
    · exact le_refl 0
    · omega

/-- Helper: every event the phase loop emits satisfies the bounds, for a
positive duration and a start instant at or before every reading. -/
theorem runPhaseAux_bounds (s : Session) (d st : Int) (nows : Nat → Int)
    (cancel : Nat → Bool) (hd : 0 < d) (hst : ∀ k, st ≤ nows k) :
    ∀ fuel k evts r,
      runPhaseAux s d st nows cancel fuel k = some (evts, r) →
      ∀ ev ∈ evts, 0 ≤ ev.Fraction ∧ ev.Fraction ≤ 1 ∧
        0 ≤ ev.Remaining ∧ 0 ≤ ev.Elapsed := by
  intro fuel
  induction fuel with
  | zero => intro k evts r h; simp [runPhaseAux] at h
  | succ n ih =>
    intro k evts r h
    have hev := mkEvent_bounds s d (nows (k + 1) - st) hd
      (by have := hst (k + 1); omega)
    simp only [runPhaseAux] at h
    split_ifs at h with h1 h2 h3
    · simp only [Option.some.injEq, Prod.mk.injEq] at h
      obtain ⟨rfl, rfl⟩ := h
      intro ev hmem
      simp at hmem
    · simp only [Option.some.injEq, Prod.mk.injEq] at h
      obtain ⟨rfl, rfl⟩ := h
      intro ev hmem
      rw [List.mem_singleton] at hmem
      subst hmem
      exact hev
    · simp only [Option.some.injEq, Prod.mk.injEq] at h
      obtain ⟨rfl, rfl⟩ := h
      intro ev hmem
      rw [List.mem_singleton] at hmem
      subst hmem
      exact hev
    · cases hm : runPhaseAux s d st nows cancel n (k + 1) with
      | none => rw [hm] at h; simp at h
      | some pr =>
        obtain ⟨evts2, r2⟩ := pr
        rw [hm] at h
        simp only [Option.some.injEq, Prod.mk.injEq] at h
        obtain ⟨rfl, rfl⟩ := h
        intro ev hmem
        rcases List.mem_cons.mp hmem with rfl | hmem2
        · exact hev
        · exact ih (k + 1) evts2 r2 hm ev hmem2

/-- Helper: event bounds for one `runPhase`, given a monotone clock and a
nonnegative phase duration. -/
theorem runPhase_bounds (s : Session) (nows : Nat → Int) (cancel : Nat → Bool)
    (fuel : Nat) (evts : List TimerEvent) (r : PhaseOutcome)
    (hd : 0 ≤ s.PhaseDuration) (hm : Monotone nows)
    (h : runPhase s nows cancel fuel = some (evts, r)) :
    ∀ ev ∈ evts, 0 ≤ ev.Fraction ∧ ev.Fraction ≤ 1 ∧
      0 ≤ ev.Remaining ∧ 0 ≤ ev.Elapsed := by
  rw [runPhase] at h
  split_ifs at h with hz
  · simp only [Option.some.injEq, Prod.mk.injEq] at h
    obtain ⟨rfl, rfl⟩ := h
    intro ev hmem
    simp at hmem
  · exact runPhaseAux_bounds s _ (nows 0) nows cancel
      (lt_of_le_of_ne hd (Ne.symm hz)) (fun k => hm (Nat.zero_le k))
      fuel 0 evts r h

/-- Helper: a phase of nonzero duration that completes (is not skipped
and not cancelled) emits at least one event, and its final event carries
the completion flag. -/
theorem runPhaseAux_completed_last (s : Session) (d st : Int)
    (nows : Nat → Int) (cancel : Nat → Bool) :
    ∀ fuel k evts,
      runPhaseAux s d st nows cancel fuel k = some (evts, PhaseOutcome.completed) →
      ∃ pre fin, evts = pre ++ [fin] ∧ fin.PhaseComplete = true := by
  intro fuel
  induction fuel with
  | zero => intro k evts h; simp [runPhaseAux] at h
  | succ n ih =>
    intro k evts h
    simp only [runPhaseAux] at h
    split_ifs at h with h1 h2 h3
    · simp at h
    · simp only [Option.some.injEq, Prod.mk.injEq] at h
      obtain ⟨rfl, -⟩ := h
      exact ⟨[], mkEvent s d (nows (k + 1) - st), rfl, by simp [mkEvent, h2]⟩
    · simp at h
    · cases hm : runPhaseAux s d st nows cancel n (k + 1) with
      | none => rw [hm] at h; simp at h
      | some pr =>
        obtain ⟨evts2, r2⟩ := pr
        rw [hm] at h
        cases r2 with
        | cancelled => simp at h
        | completed =>
          simp only [Option.some.injEq, Prod.mk.injEq] at h
          obtain ⟨rfl, -⟩ := h
          obtain ⟨pre, fin, rfl, hfin⟩ := ih (k + 1) evts2 hm
          exact ⟨mkEvent s d (nows (k + 1) - st) :: pre, fin, rfl, hfin⟩

/-- C4: every event of a run has `0 ≤ Fraction ≤ 1`, `0 ≤ Remaining` and
`0 ≤ Elapsed`, for a clock whose readings never go backwards and the
validated (nonnegative-duration) configurations the engine assumes; and
every non-skipped phase that completes uncancelled emits at least one
event whose last element carries `PhaseComplete = true`. -/
theorem C4_event_bounds (fuel phaseFuel : Nat) (nows : Nat → Nat → Int)
    (cancel : Nat → Nat → Bool) (s : Session) (out : RunOut)
    (hmono : ∀ p, Monotone (nows p))
    (hw : 0 ≤ s.config.WorkDuration) (hsb : 0 ≤ s.config.ShortBreakDuration)
    (hlb : 0 ≤ s.config.LongBreakDuration)
    (h : Run fuel nows cancel phaseFuel s = some out) :
    (∀ ev ∈ out.events, 0 ≤ ev.Fraction ∧ ev.Fraction ≤ 1 ∧
      0 ≤ ev.Remaining ∧ 0 ≤ ev.Elapsed) ∧
    (∀ (s2 : Session) (nows2 : Nat → Int) (cancel2 : Nat → Bool)
        (pf : Nat) (evts : List TimerEvent),
      runPhase s2 nows2 cancel2 pf = some (evts, PhaseOutcome.completed) →
      s2.PhaseDuration ≠ 0 →
      ∃ pre fin, evts = pre ++ [fin] ∧ fin.PhaseComplete = true) := by
  constructor
  · induction fuel generalizing nows cancel s out with
    | zero => simp [Run] at h
    | succ n ih =>
      rw [Run] at h
      by_cases hd : s.CurrentPhase = Phase.Done
      · rw [if_pos hd] at h
        obtain rfl := Option.some.inj h
        intro ev hmem
        simp at hmem
      · rw [if_neg hd] at h
        have hdur : 0 ≤ s.PhaseDuration := by
          rw [Session.PhaseDuration]
          cases s.currentPhase
          · exact hw
          · exact hsb
          · exact hlb
          · exact le_refl 0
        cases hrp : runPhase s (nows 0) (cancel 0) phaseFuel with
        | none => rw [hrp] at h; simp at h
        | some pr =>
          obtain ⟨evts, r⟩ := pr
          rw [hrp] at h
          cases r with
          | cancelled =>
            obtain rfl := Option.some.inj h
            exact runPhase_bounds s (nows 0) (cancel 0) phaseFuel evts _
              hdur (hmono 0) hrp
          | completed =>
            cases hr2 : Run n (fun p => nows (p + 1)) (fun p => cancel (p + 1))
                phaseFuel (s.NextPhase).1 with
            | none => rw [hr2] at h; simp at h
            | some out2 =>
              rw [hr2] at h
              obtain rfl := Option.some.inj h
              intro ev hmem
              rcases List.mem_append.mp hmem with hmem1 | hmem2
              · exact runPhase_bounds s (nows 0) (cancel 0) phaseFuel evts _
                  hdur (hmono 0) hrp ev hmem1
              · have hcfg := nextPhase_config s
                exact ih (fun p => nows (p + 1)) (fun p => cancel (p + 1))
                  (s.NextPhase).1 out2 (fun p => hmono (p + 1))
                  (hcfg ▸ hw) (hcfg ▸ hsb) (hcfg ▸ hlb) hr2 ev hmem2
  · intro s2 nows2 cancel2 pf evts hrp hdz
    rw [runPhase, if_neg hdz] at hrp
    exact runPhaseAux_completed_last s2 _ (nows2 0) nows2 cancel2 pf 0 evts hrp

/-- Witness for C4 at a concrete one-cycle run with work duration 1 and a
clock advancing one unit per reading. -/
theorem C4_event_bounds_witness :
    (∀ p : Nat, Monotone ((fun _ k => (k : Int)) p)) ∧
      Run 2 (fun _ k => (k : Int)) (fun _ _ => false) 1
          (NewSession ⟨1, 0, 0, 0, 1⟩) =
        some ⟨[⟨Phase.Work, 1, 0, 1, 1, true, 1, 1, 1, 1⟩],
          RunResult.success, ⟨⟨1, 0, 0, 0, 1⟩, Phase.Done, 1, 1, 1⟩, true⟩ ∧
      ∀ ev ∈ [(⟨Phase.Work, 1, 0, 1, 1, true, 1, 1, 1, 1⟩ : TimerEvent)],
        0 ≤ ev.Fraction ∧ ev.Fraction ≤ 1 ∧
          0 ≤ ev.Remaining ∧ 0 ≤ ev.Elapsed :=
  ⟨fun _ a b hab => by show (a : Int) ≤ (b : Int); exact_mod_cast hab,
   by simp +decide [Run, runPhase, runPhaseAux, mkEvent, NewSession,
     Session.calculateTotalPhases, Session.PhaseDuration, Session.CurrentPhase,
     Session.NextPhase, Session.CyclesComplete, Session.TotalCycles,
     Session.PhasesComplete, Session.TotalPhases],
   (C4_event_bounds 2 1 (fun _ k => (k : Int)) (fun _ _ => false)
      (NewSession ⟨1, 0, 0, 0, 1⟩)
      ⟨[⟨Phase.Work, 1, 0, 1, 1, true, 1, 1, 1, 1⟩],
        RunResult.success, ⟨⟨1, 0, 0, 0, 1⟩, Phase.Done, 1, 1, 1⟩, true⟩
      (fun _ a b hab => by show (a : Int) ≤ (b : Int); exact_mod_cast hab)
      (by decide) (by decide) (by decide)
      (by simp +decide [Run, runPhase, runPhaseAux, mkEvent, NewSession,
        Session.calculateTotalPhases, Session.PhaseDuration,
        Session.CurrentPhase, Session.NextPhase, Session.CyclesComplete,
        Session.TotalCycles, Session.PhasesComplete, Session.TotalPhases])).1⟩

/-- C5: a phase whose configured duration is zero emits no events and
completes immediately; the `Run` loop still advances past it via
`NextPhase`, so it increments the completed-phase count (and, for a
zero-duration `Work` phase, the completed-cycle count). -/
theorem C5_zero_duration (s : Session) (hnd : s.currentPhase ≠ Phase.Done)
    (hz : s.PhaseDuration = 0) (fuel phaseFuel : Nat)
    (nows : Nat → Nat → Int) (cancel : Nat → Nat → Bool)
    (nows1 : Nat → Int) (cancel1 : Nat → Bool) :
    runPhase s nows1 cancel1 phaseFuel = some ([], PhaseOutcome.completed) ∧
    Run (fuel + 1) nows cancel phaseFuel s =
      Run fuel (fun p => nows (p + 1)) (fun p => cancel (p + 1)) phaseFuel
        (s.NextPhase).1 ∧
    (s.NextPhase).1.phasesComplete = s.phasesComplete + 1 ∧
    (s.currentPhase = Phase.Work →
      (s.NextPhase).1.cyclesComplete = s.cyclesComplete + 1) := by
  refine ⟨by rw [runPhase, if_pos hz], ?_, nextPhase_phasesComplete s hnd,
    fun hw => nextPhase_cyclesComplete s hw⟩
  rw [Run]
  have hd : ¬ s.CurrentPhase = Phase.Done := hnd
  rw [if_neg hd]
  have h2 : runPhase s (nows 0) (cancel 0) phaseFuel =
      some ([], PhaseOutcome.completed) := by
    rw [runPhase, if_pos hz]
  rw [h2]
  cases hr : Run fuel (fun p => nows (p + 1)) (fun p => cancel (p + 1))
      phaseFuel (s.NextPhase).1 with
  | none => rfl
  | some out => simp

/-- Witness for C5: a zero-duration short break (as in the spec scenario
`short = 0`, `cycles = 3`, `frequency = 0`). -/
theorem C5_zero_duration_witness :
    (⟨⟨60, 0, 30, 0, 3⟩, Phase.ShortBreak, 1, 5, 1⟩ : Session).currentPhase ≠
        Phase.Done ∧
      (⟨⟨60, 0, 30, 0, 3⟩, Phase.ShortBreak, 1, 5, 1⟩ : Session).PhaseDuration
        = 0 ∧
      runPhase ⟨⟨60, 0, 30, 0, 3⟩, Phase.ShortBreak, 1, 5, 1⟩ (fun _ => 0)
        (fun _ => false) 3 = some ([], PhaseOutcome.completed) ∧
      (Session.NextPhase
        ⟨⟨60, 0, 30, 0, 3⟩, Phase.ShortBreak, 1, 5, 1⟩).1.phasesComplete =
        1 + 1 :=
  ⟨by decide, by decide,
   (C5_zero_duration ⟨⟨60, 0, 30, 0, 3⟩, Phase.ShortBreak, 1, 5, 1⟩
      (by decide) (by decide) 1 3 (fun _ _ => 0) (fun _ _ => false)
      (fun _ => 0) (fun _ => false)).1,
   (C5_zero_duration ⟨⟨60, 0, 30, 0, 3⟩, Phase.ShortBreak, 1, 5, 1⟩
      (by decide) (by decide) 1 3 (fun _ _ => 0) (fun _ _ => false)
      (fun _ => 0) (fun _ => false)).2.2.1⟩

/-- Helper: every event of one phase loop carries the fixed 1-based cycle
and phase ordinals of its (unchanged) session. -/
theorem runPhaseAux_counters (s : Session) (d st : Int) (nows : Nat → Int)
    (cancel : Nat → Bool) :
    ∀ fuel k evts r,
      runPhaseAux s d st nows cancel fuel k = some (evts, r) →
      ∀ ev ∈ evts, ev.CycleNum = s.CyclesComplete + 1 ∧
        ev.PhaseNum = s.PhasesComplete + 1 := by
  intro fuel
  induction fuel with
  | zero => intro k evts r h; simp [runPhaseAux] at h
  | succ n ih =>
    intro k evts r h
    simp only [runPhaseAux] at h
    split_ifs at h with h1 h2 h3
    · simp only [Option.some.injEq, Prod.mk.injEq] at h
      obtain ⟨rfl, rfl⟩ := h
      intro ev hmem
      simp at hmem
    · simp only [Option.some.injEq, Prod.mk.injEq] at h
      obtain ⟨rfl, rfl⟩ := h
      intro ev hmem
      rw [List.mem_singleton] at hmem
      subst hmem
      exact ⟨rfl, rfl⟩
    · simp only [Option.some.injEq, Prod.mk.injEq] at h
      obtain ⟨rfl, rfl⟩ := h
      intro ev hmem
      rw [List.mem_singleton] at hmem
      subst hmem
      exact ⟨rfl, rfl⟩
    · cases hm : runPhaseAux s d st nows cancel n (k + 1) with
      | none => rw [hm] at h; simp at h
      | some pr =>
        obtain ⟨evts2, r2⟩ := pr
        rw [hm] at h
        simp only [Option.some.injEq, Prod.mk.injEq] at h
        obtain ⟨rfl, rfl⟩ := h
        intro ev hmem
        rcases List.mem_cons.mp hmem with rfl | hmem2
        · exact ⟨rfl, rfl⟩
        · exact ih (k + 1) evts2 r2 hm ev hmem2

/-- C9: every emitted event carries `CycleNum` equal to the completed
cycle count plus one and `PhaseNum` equal to the completed phase count
plus one, taken at emission time; consequently the events of a break
phase that follows a just-completed work cycle carry the number of the
upcoming work cycle, one more than the count completed before that work
phase plus one. -/
theorem C9_event_counters :
    (∀ (s : Session) (nows : Nat → Int) (cancel : Nat → Bool) (fuel : Nat)
        (evts : List TimerEvent) (r : PhaseOutcome),
      runPhase s nows cancel fuel = some (evts, r) →
      ∀ ev ∈ evts, ev.CycleNum = s.CyclesComplete + 1 ∧
        ev.PhaseNum = s.PhasesComplete + 1) ∧
    (∀ (sW : Session), sW.currentPhase = Phase.Work →
      ((sW.NextPhase).1.currentPhase = Phase.ShortBreak ∨
        (sW.NextPhase).1.currentPhase = Phase.LongBreak) →
      ∀ (nows : Nat → Int) (cancel : Nat → Bool) (fuel : Nat)
        (evts : List TimerEvent) (r : PhaseOutcome),
        runPhase (sW.NextPhase).1 nows cancel fuel = some (evts, r) →
        ∀ ev ∈ evts, ev.CycleNum = (sW.cyclesComplete + 1) + 1) := by
  have hmain : ∀ (s : Session) (nows : Nat → Int) (cancel : Nat → Bool)
      (fuel : Nat) (evts : List TimerEvent) (r : PhaseOutcome),
      runPhase s nows cancel fuel = some (evts, r) →
      ∀ ev ∈ evts, ev.CycleNum = s.CyclesComplete + 1 ∧
        ev.PhaseNum = s.PhasesComplete + 1 := by
    intro s nows cancel fuel evts r h
    rw [runPhase] at h
    split_ifs at h with hzq
    · simp only [Option.some.injEq, Prod.mk.injEq] at h
      obtain ⟨rfl, rfl⟩ := h
      intro ev hmem
      simp at hmem
    · exact runPhaseAux_counters s _ (nows 0) nows cancel fuel 0 evts r h
  refine ⟨hmain, ?_⟩
  intro sW hw _ nows cancel fuel evts r h ev hmem
  have h1 := (hmain _ nows cancel fuel evts r h ev hmem).1
  rw [h1]
  have hc := nextPhase_cyclesComplete sW hw
  simp [Session.CyclesComplete, hc]

/-- Witness for C9 at a concrete one-event phase. -/
theorem C9_event_counters_witness :
    runPhase ⟨⟨1, 0, 0, 0, 0⟩, Phase.Work, 0, 0, 0⟩ (fun k => (k : Int))
        (fun _ => false) 1 =
      some ([⟨Phase.Work, 1, 0, 1, 1, true, 1, 0, 1, 0⟩],
        PhaseOutcome.completed) ∧
    (⟨Phase.Work, 1, 0, 1, 1, true, 1, 0, 1, 0⟩ : TimerEvent).CycleNum =
      Session.CyclesComplete ⟨⟨1, 0, 0, 0, 0⟩, Phase.Work, 0, 0, 0⟩ + 1 :=
  ⟨by simp +decide [runPhase, runPhaseAux, mkEvent, Session.PhaseDuration,
     Session.CurrentPhase, Session.CyclesComplete, Session.TotalCycles,
     Session.PhasesComplete, Session.TotalPhases],
   (C9_event_counters.1 ⟨⟨1, 0, 0, 0, 0⟩, Phase.Work, 0, 0, 0⟩
      (fun k => (k : Int)) (fun _ => false) 1
      [⟨Phase.Work, 1, 0, 1, 1, true, 1, 0, 1, 0⟩] PhaseOutcome.completed
      (by simp +decide [runPhase, runPhaseAux, mkEvent, Session.PhaseDuration,
        Session.CurrentPhase, Session.CyclesComplete, Session.TotalCycles,
        Session.PhasesComplete, Session.TotalPhases])
      ⟨Phase.Work, 1, 0, 1, 1, true, 1, 0, 1, 0⟩
      (List.mem_singleton.mpr rfl)).1⟩

/-!
## The mock clock (`MockClock` / `MockTicker` in `clock.go`)

* `time.Time` instants and `time.Duration` are `Int` nanosecond counts.
* A `MockTicker` channel of capacity 1 (`make(chan time.Time, 1)`) is an
  `Option Int`: `none` is an empty channel, `some t` an unconsumed tick.
  This makes "at most one pending tick per ticker" structural.
* `Advance` is a `for` loop with no a-priori bound, so the embedding
  takes fuel; `none` means the fuel ran out mid-loop.  The embedding also
  returns the chronologically ordered trace of ticker firings the loop
  performed (ticker index, firing instant, and whether the tick was
  delivered or dropped by the non-blocking send).
-/

/-- `MockTicker` from `clock.go`. -/
structure MockTicker where
  interval : Int
  ch : Option Int
  nextTick : Int
  stopped : Bool
deriving DecidableEq, Repr

/-- `MockClock` from `clock.go`. -/
structure MockClock where
  current : Int
  tickers : List MockTicker
deriving DecidableEq, Repr

/-- `NewMockClock` from `clock.go`. -/
def NewMockClock (start : Int) : MockClock := ⟨start, []⟩

/-- `MockClock.NewTicker` from `clock.go`: registers a fresh ticker with
`nextTick = current + d` and empty channel, returning the updated clock
and the index of the new ticker. -/
def MockClock.NewTicker (m : MockClock) (d : Int) : MockClock × Nat :=
  ({ m with tickers := m.tickers ++ [⟨d, none, m.current + d, false⟩] },
    m.tickers.length)

/-- `MockTicker.Stop` from `clock.go`. -/
def MockTicker.Stop (t : MockTicker) : MockTicker := { t with stopped := true }

/-- The `for _, t := range m.tickers` scan of `Advance` selecting the
earliest non-stopped ticker (strictly-before comparison, so ties keep
the first-scanned ticker), with its index. -/
def pickEarliestAux : List MockTicker → Nat → Option (Nat × MockTicker) →
    Option (Nat × MockTicker)
  | [], _, acc => acc
  | t :: ts, i, acc =>
    if t.stopped then pickEarliestAux ts (i + 1) acc
    else
      match acc with
      | none => pickEarliestAux ts (i + 1) (some (i, t))
      | some (j, e) =>
        if t.nextTick < e.nextTick then pickEarliestAux ts (i + 1) (some (i, t))
        else pickEarliestAux ts (i + 1) (some (j, e))

/-- The earliest non-stopped ticker of the list, as scanned by `Advance`. -/
def pickEarliest (ts : List MockTicker) : Option (Nat × MockTicker) :=
  pickEarliestAux ts 0 none

/-- One ticker firing performed by `Advance`: which ticker, at which
instant, and whether the non-blocking send delivered the tick (`false`
means it was dropped because a tick was already pending). -/
structure Firing where
  idx : Nat
  time : Int
  delivered : Bool
deriving DecidableEq, Repr

/-- The state after the `Advance` loop body fires ticker `i` (found as
`e`): time moves to its `nextTick`, the non-blocking send fills the
channel only if it is empty, and the ticker is rescheduled by its
interval. -/
def fireState (c : MockClock) (i : Nat) (e : MockTicker) : MockClock :=
  { c with
    current := e.nextTick
    tickers := c.tickers.set i
      { e with
        ch := if e.ch.isNone then some e.nextTick else e.ch
        nextTick := e.nextTick + e.interval } }

/-- The `for m.current.Before(target)` loop of `MockClock.Advance`,
returning the final clock and the firing trace, or `none` if the fuel
ran out. -/
def advanceAux : Nat → MockClock → Int → Option (MockClock × List Firing)
  | 0, _, _ => none
  | fuel + 1, c, target =>
    if c.current < target then
      match pickEarliest c.tickers with
      | none => some ({ c with current := target }, [])
      | some (i, e) =>
        if target < e.nextTick then some ({ c with current := target }, [])
        else
          match advanceAux fuel (fireState c i e) target with
          | none => none
          | some (cf, fs) => some (cf, (⟨i, e.nextTick, e.ch.isNone⟩ : Firing) :: fs)
    else some (c, [])

/-- `MockClock.Advance` from `clock.go`: move to `current + d`, firing
due tickers on the way. -/
def MockClock.Advance (fuel : Nat) (c : MockClock) (d : Int) :
    Option (MockClock × List Firing) :=
  advanceAux fuel c (c.current + d)

/-- `MockClock.Sleep` from `clock.go` delegates to `Advance`. -/
def MockClock.Sleep (fuel : Nat) (c : MockClock) (d : Int) :
    Option (MockClock × List Firing) :=
  MockClock.Advance fuel c d

/-- Helper: the scan result never has a later `nextTick` than its
accumulator. -/
theorem pickEarliestAux_le_acc :
    ∀ (ts : List MockTicker) (i j : Nat) (e : MockTicker) (r : Nat × MockTicker),
      pickEarliestAux ts i (some (j, e)) = some r → r.2.nextTick ≤ e.nextTick := by
  intro ts
  induction ts with
  | nil =>
    intro i j e r h
    simp only [pickEarliestAux] at h
    obtain rfl := Option.some.inj h
    exact le_refl _
  | cons t0 ts ih =>
    intro i j e r h
    simp only [pickEarliestAux] at h
    split_ifs at h with hstop hcmp
    · exact ih _ _ _ _ h
    · exact le_trans (ih _ _ _ _ h) hcmp.le
    · exact ih _ _ _ _ h

/-- Helper: the scan result is at or before every non-stopped ticker of
the list. -/
theorem pickEarliestAux_min :
    ∀ (ts : List MockTicker) (i : Nat) (acc : Option (Nat × MockTicker))
      (r : Nat × MockTicker),
      pickEarliestAux ts i acc = some r →
      ∀ t ∈ ts, t.stopped = false → r.2.nextTick ≤ t.nextTick := by
  intro ts
  induction ts with
  | nil =>
    intro i acc r h t hmem
    exact absurd hmem (List.not_mem_nil t)
  | cons t0 ts ih =>
    intro i acc r h t hmem hstop
    simp only [pickEarliestAux] at h
    rcases List.mem_cons.mp hmem with rfl | hmem2
    · rw [if_neg (by simp [hstop])] at h
      cases acc with
      | none => exact pickEarliestAux_le_acc ts _ _ _ _ h
      | some je =>
        obtain ⟨j, e⟩ := je
        dsimp only at h
        split_ifs at h with hcmp
        · exact pickEarliestAux_le_acc ts _ _ _ _ h
        · exact le_trans (pickEarliestAux_le_acc ts _ _ _ _ h) (not_lt.mp hcmp)
    · split_ifs at h with hstop0
      · exact ih _ _ _ h t hmem2 hstop
      · cases acc with
        | none => exact ih _ _ _ h t hmem2 hstop
        | some je =>
          obtain ⟨j, e⟩ := je
          dsimp only at h
          split_ifs at h with hcmp
          · exact ih _ _ _ h t hmem2 hstop
          · exact ih _ _ _ h t hmem2 hstop

/-- Helper: a scan result not inherited from the accumulator is an
actual, non-stopped element of the list at the reported index. -/
theorem pickEarliestAux_mem :
    ∀ (ts : List MockTicker) (i : Nat) (acc : Option (Nat × MockTicker))
      (r : Nat × MockTicker),
      pickEarliestAux ts i acc = some r →
      acc = some r ∨
        ∃ k, ts.get? k = some r.2 ∧ r.1 = i + k ∧ r.2.stopped = false := by
  intro ts
  induction ts with
  | nil =>
    intro i acc r h
    left
    simpa [pickEarliestAux] using h
  | cons t0 ts ih =>
    intro i acc r h
    simp only [pickEarliestAux] at h
    split_ifs at h with hstop0
    · rcases ih _ _ _ h with hacc | ⟨k, hk, hik, hs⟩
      · exact Or.inl hacc
      · exact Or.inr ⟨k + 1, by simpa using hk, by omega, hs⟩
    · cases acc with
      | none =>
        rcases ih _ _ _ h with hacc | ⟨k, hk, hik, hs⟩
        · obtain rfl := Option.some.inj hacc
          exact Or.inr ⟨0, by simp, by omega, by simpa using hstop0⟩
        · exact Or.inr ⟨k + 1, by simpa using hk, by omega, hs⟩
      | some je =>
        obtain ⟨j, e⟩ := je
        dsimp only at h
        split_ifs at h with hcmp
        · rcases ih _ _ _ h with hacc | ⟨k, hk, hik, hs⟩
          · obtain rfl := Option.some.inj hacc
            exact Or.inr ⟨0, by simp, by omega, by simpa using hstop0⟩
          · exact Or.inr ⟨k + 1, by simpa using hk, by omega, hs⟩
        · rcases ih _ _ _ h with hacc | ⟨k, hk, hik, hs⟩
          · exact Or.inl hacc
          · exact Or.inr ⟨k + 1, by simpa using hk, by omega, hs⟩

/-- Helper: a failed scan means the accumulator was empty and every
ticker is stopped. -/
theorem pickEarliestAux_none :
    ∀ (ts : List MockTicker) (i : Nat) (acc : Option (Nat × MockTicker)),
      pickEarliestAux ts i acc = none →
      acc = none ∧ ∀ t ∈ ts, t.stopped = true := by
  intro ts
  induction ts with
  | nil =>
    intro i acc h
    refine ⟨by simpa [pickEarliestAux] using h, ?_⟩
    intro t ht
    exact absurd ht (List.not_mem_nil t)
  | cons t0 ts ih =>
    intro i acc h
    simp only [pickEarliestAux] at h
    split_ifs at h with hstop0
    · obtain ⟨ha, hts⟩ := ih _ _ h
      refine ⟨ha, ?_⟩
      intro t ht
      rcases List.mem_cons.mp ht with rfl | h2
      · exact hstop0
      · exact hts t h2
    · cases acc with
      | none =>
        have := (ih _ _ h).1
        simp at this
      | some je =>
        obtain ⟨j, e⟩ := je
        dsimp only at h
        split_ifs at h with hcmp
        · have := (ih _ _ h).1
          simp at this
        · have := (ih _ _ h).1
          simp at this

/-- The ticker `Advance` fires is at or before every non-stopped ticker
(chronological selection). -/
theorem pickEarliest_min (ts : List MockTicker) (i : Nat) (e : MockTicker)
    (h : pickEarliest ts = some (i, e)) :
    ∀ t ∈ ts, t.stopped = false → e.nextTick ≤ t.nextTick :=
  pickEarliestAux_min ts 0 none (i, e) h

/-- The ticker `Advance` fires is an actual non-stopped registered
ticker at the reported index. -/
theorem pickEarliest_mem (ts : List MockTicker) (i : Nat) (e : MockTicker)
    (h : pickEarliest ts = some (i, e)) :
    ts.get? i = some e ∧ e.stopped = false := by
  rcases pickEarliestAux_mem ts 0 none (i, e) h with hacc | ⟨k, hk, hik, hs⟩
  · simp at hacc
  · have hki : i = k := by simpa using hik
    subst hki
    exact ⟨hk, hs⟩

/-- When the scan finds nothing, every registered ticker is stopped. -/
theorem pickEarliest_none (ts : List MockTicker)
    (h : pickEarliest ts = none) : ∀ t ∈ ts, t.stopped = true :=
  (pickEarliestAux_none ts 0 none h).2

/-- Loop exit: once `current` is at or past the target, `Advance` does
nothing further. -/
theorem advanceAux_stop (fuel : Nat) (c : MockClock) (target : Int)
    (h : ¬ c.current < target) :
    advanceAux (fuel + 1) c target = some (c, []) := by
  rw [advanceAux, if_neg h]

/-- Jump: with no non-stopped ticker registered, time jumps straight to
the target. -/
theorem advanceAux_jump_none (fuel : Nat) (c : MockClock) (target : Int)
    (hlt : c.current < target) (hp : pickEarliest c.tickers = none) :
    advanceAux (fuel + 1) c target =
      some ({ c with current := target }, []) := by
  rw [advanceAux, if_pos hlt, hp]

/-- Jump: when the earliest non-stopped ticker is due after the target,
time jumps straight to the target. -/
theorem advanceAux_jump_late (fuel : Nat) (c : MockClock) (target : Int)
    (i : Nat) (e : MockTicker) (hlt : c.current < target)
    (hp : pickEarliest c.tickers = some (i, e)) (hlate : target < e.nextTick) :
    advanceAux (fuel + 1) c target =
      some ({ c with current := target }, []) := by
  rw [advanceAux, if_pos hlt, hp]
  dsimp only
  rw [if_pos hlate]

/-- Fire: when the earliest non-stopped ticker is due at or before the
target, exactly that ticker fires (time moves to its `nextTick`, the tick
is delivered if its channel is free and dropped otherwise, the ticker is
rescheduled by its interval) and the loop continues. -/
theorem advanceAux_fire (fuel : Nat) (c : MockClock) (target : Int)
    (i : Nat) (e : MockTicker) (hlt : c.current < target)
    (hp : pickEarliest c.tickers = some (i, e)) (hdue : e.nextTick ≤ target) :
    advanceAux (fuel + 1) c target =
      match advanceAux fuel (fireState c i e) target with
      | none => none
      | some (cf, fs) =>
        some (cf, (⟨i, e.nextTick, e.ch.isNone⟩ : Firing) :: fs) := by
  rw [advanceAux, if_pos hlt, hp]
  dsimp only
  rw [if_neg (not_lt.mpr hdue)]

/-- Helper: firing preserves positivity of the intervals of non-stopped
tickers. -/
theorem fireState_pos (c : MockClock) (i : Nat) (e : MockTicker)
    (hget : c.tickers.get? i = some e)
    (hpos : ∀ t ∈ c.tickers, t.stopped = false → 0 < t.interval) :
    ∀ t ∈ (fireState c i e).tickers, t.stopped = false → 0 < t.interval := by
  intro t ht hts
  rcases List.mem_or_eq_of_mem_set ht with hmem | rfl
  · exact hpos t hmem hts
  · exact hpos e (List.get?_mem hget) (by simpa using hts)

/-- Helper: a completed `Advance` that started at or before the target
ends exactly at the target. -/
theorem advanceAux_current :
    ∀ (fuel : Nat) (c : MockClock) (target : Int) (cf : MockClock)
      (tr : List Firing),
      c.current ≤ target → advanceAux fuel c target = some (cf, tr) →
      cf.current = target := by
  intro fuel
  induction fuel with
  | zero => intro c target cf tr hle h; simp [advanceAux] at h
  | succ n ih =>
    intro c target cf tr hle h
    by_cases hlt : c.current < target
    · cases hp : pickEarliest c.tickers with
      | none =>
        rw [advanceAux_jump_none n c target hlt hp] at h
        simp only [Option.some.injEq, Prod.mk.injEq] at h
        obtain ⟨rfl, rfl⟩ := h
        rfl
      | some ie =>
        obtain ⟨i, e⟩ := ie
        by_cases hlate : target < e.nextTick
        · rw [advanceAux_jump_late n c target i e hlt hp hlate] at h
          simp only [Option.some.injEq, Prod.mk.injEq] at h
          obtain ⟨rfl, rfl⟩ := h
          rfl
        · have hdue : e.nextTick ≤ target := not_lt.mp hlate
          rw [advanceAux_fire n c target i e hlt hp hdue] at h
          cases hrec : advanceAux n (fireState c i e) target with
          | none => rw [hrec] at h; simp at h
          | some pr =>
            obtain ⟨cf2, fs⟩ := pr
            rw [hrec] at h
            simp only [Option.some.injEq, Prod.mk.injEq] at h
            obtain ⟨rfl, rfl⟩ := h
            exact ih (fireState c i e) target cf2 fs hdue hrec
    · rw [advanceAux_stop n c target hlt] at h
      simp only [Option.some.injEq, Prod.mk.injEq] at h
      obtain ⟨rfl, rfl⟩ := h
      omega

/-- Helper: with positive intervals, every firing of an `Advance` run
happens at or after any common lower bound of the non-stopped tickers. -/
theorem advanceAux_trace_lb :
    ∀ (fuel : Nat) (c : MockClock) (target b : Int) (cf : MockClock)
      (tr : List Firing),
      advanceAux fuel c target = some (cf, tr) →
      (∀ t ∈ c.tickers, t.stopped = false → 0 < t.interval) →
      (∀ t ∈ c.tickers, t.stopped = false → b ≤ t.nextTick) →
      ∀ f ∈ tr, b ≤ f.time := by
  intro fuel
  induction fuel with
  | zero => intro c target b cf tr h; simp [advanceAux] at h
  | succ n ih =>
    intro c target b cf tr h hpos hlb
    by_cases hlt : c.current < target
    · cases hp : pickEarliest c.tickers with
      | none =>
        rw [advanceAux_jump_none n c target hlt hp] at h
        simp only [Option.some.injEq, Prod.mk.injEq] at h
        obtain ⟨rfl, rfl⟩ := h
        intro f hf
        simp at hf
      | some ie =>
        obtain ⟨i, e⟩ := ie
        by_cases hlate : target < e.nextTick
        · rw [advanceAux_jump_late n c target i e hlt hp hlate] at h
          simp only [Option.some.injEq, Prod.mk.injEq] at h
          obtain ⟨rfl, rfl⟩ := h
          intro f hf
          simp at hf
        · have hdue : e.nextTick ≤ target := not_lt.mp hlate
          rw [advanceAux_fire n c target i e hlt hp hdue] at h
          cases hrec : advanceAux n (fireState c i e) target with
          | none => rw [hrec] at h; simp at h
          | some pr =>
            obtain ⟨cf2, fs⟩ := pr
            rw [hrec] at h
            simp only [Option.some.injEq, Prod.mk.injEq] at h
            obtain ⟨rfl, rfl⟩ := h
            obtain ⟨hget, hstop⟩ := pickEarliest_mem _ _ _ hp
            have hemem : e ∈ c.tickers := List.get?_mem hget
            have hbe : b ≤ e.nextTick := hlb e hemem hstop
            intro f hf
            rcases List.mem_cons.mp hf with rfl | hf2
            · exact hbe
            · refine ih (fireState c i e) target b cf2 fs hrec
                (fireState_pos c i e hget hpos) ?_ f hf2
              intro t ht hts
              rcases List.mem_or_eq_of_mem_set ht with hmem | rfl
              · exact hlb t hmem hts
              · have hip : 0 < e.interval := hpos e hemem hstop
                show b ≤ e.nextTick + e.interval
                omega
    · rw [advanceAux_stop n c target hlt] at h
      simp only [Option.some.injEq, Prod.mk.injEq] at h
      obtain ⟨rfl, rfl⟩ := h
      intro f hf
      simp at hf

/-- Helper: with positive intervals, the firing trace of an `Advance`
run is chronologically ordered. -/
theorem advanceAux_trace_sorted :
    ∀ (fuel : Nat) (c : MockClock) (target : Int) (cf : MockClock)
      (tr : List Firing),
      advanceAux fuel c target = some (cf, tr) →
      (∀ t ∈ c.tickers, t.stopped = false → 0 < t.interval) →
      List.Pairwise (fun f g => f.time ≤ g.time) tr := by
  intro fuel
  induction fuel with
  | zero => intro c target cf tr h; simp [advanceAux] at h
  | succ n ih =>
    intro c target cf tr h hpos
    by_cases hlt : c.current < target
    · cases hp : pickEarliest c.tickers with
      | none =>
        rw [advanceAux_jump_none n c target hlt hp] at h
        simp only [Option.some.injEq, Prod.mk.injEq] at h
        obtain ⟨rfl, rfl⟩ := h
        exact List.Pairwise.nil
      | some ie =>
        obtain ⟨i, e⟩ := ie
        by_cases hlate : target < e.nextTick
        · rw [advanceAux_jump_late n c target i e hlt hp hlate] at h
          simp only [Option.some.injEq, Prod.mk.injEq] at h
          obtain ⟨rfl, rfl⟩ := h
          exact List.Pairwise.nil
        · have hdue : e.nextTick ≤ target := not_lt.mp hlate
          rw [advanceAux_fire n c target i e hlt hp hdue] at h
          cases hrec : advanceAux n (fireState c i e) target with
          | none => rw [hrec] at h; simp at h
          | some pr =>
            obtain ⟨cf2, fs⟩ := pr
            rw [hrec] at h
            simp only [Option.some.injEq, Prod.mk.injEq] at h
            obtain ⟨rfl, rfl⟩ := h
            obtain ⟨hget, hstop⟩ := pickEarliest_mem _ _ _ hp
            have hemem : e ∈ c.tickers := List.get?_mem hget
            refine List.pairwise_cons.mpr ⟨?_, ih _ _ _ _ hrec
              (fireState_pos c i e hget hpos)⟩
            intro g hg
            refine advanceAux_trace_lb n (fireState c i e) target e.nextTick
              cf2 fs hrec (fireState_pos c i e hget hpos) ?_ g hg
            intro t ht hts
            rcases List.mem_or_eq_of_mem_set ht with hmem | rfl
            · exact pickEarliest_min _ _ _ hp t hmem hts
            · have hip : 0 < e.interval := hpos e hemem hstop
              show e.nextTick ≤ e.nextTick + e.interval
              omega
    · rw [advanceAux_stop n c target hlt] at h
      simp only [Option.some.injEq, Prod.mk.injEq] at h
      obtain ⟨rfl, rfl⟩ := h
      exact List.Pairwise.nil

/-- Helper: with positive intervals, after a completed `Advance` run no
non-stopped ticker is still due strictly before the target. -/
theorem advanceAux_final_due :
    ∀ (fuel : Nat) (c : MockClock) (target : Int) (cf : MockClock)
      (tr : List Firing),
      advanceAux fuel c target = some (cf, tr) →
      (∀ t ∈ c.tickers, t.stopped = false → 0 < t.interval) →
      (c.current < target ∨
        ∀ t ∈ c.tickers, t.stopped = false → target ≤ t.nextTick) →
      ∀ t ∈ cf.tickers, t.stopped = false → target ≤ t.nextTick := by
  intro fuel
  induction fuel with
  | zero => intro c target cf tr h; simp [advanceAux] at h
  | succ n ih =>
    intro c target cf tr h hpos hstart
    by_cases hlt : c.current < target
    · cases hp : pickEarliest c.tickers with
      | none =>
        rw [advanceAux_jump_none n c target hlt hp] at h
        simp only [Option.some.injEq, Prod.mk.injEq] at h
        obtain ⟨rfl, rfl⟩ := h
        intro t ht hts
        have := pickEarliest_none _ hp t ht
        rw [hts] at this
        exact absurd this (by simp)
      | some ie =>
        obtain ⟨i, e⟩ := ie
        by_cases hlate : target < e.nextTick
        · rw [advanceAux_jump_late n c target i e hlt hp hlate] at h
          simp only [Option.some.injEq, Prod.mk.injEq] at h
          obtain ⟨rfl, rfl⟩ := h
          intro t ht hts
          exact le_trans hlate.le (pickEarliest_min _ _ _ hp t ht hts)
        · have hdue : e.nextTick ≤ target := not_lt.mp hlate
          rw [advanceAux_fire n c target i e hlt hp hdue] at h
          cases hrec : advanceAux n (fireState c i e) target with
          | none => rw [hrec] at h; simp at h
          | some pr =>
            obtain ⟨cf2, fs⟩ := pr
            rw [hrec] at h
            simp only [Option.some.injEq, Prod.mk.injEq] at h
            obtain ⟨rfl, rfl⟩ := h
            obtain ⟨hget, hstop⟩ := pickEarliest_mem _ _ _ hp
            have hemem : e ∈ c.tickers := List.get?_mem hget
            have hip : 0 < e.interval := hpos e hemem hstop
            refine ih (fireState c i e) target cf2 fs hrec
              (fireState_pos c i e hget hpos) ?_
            by_cases hfc : e.nextTick < target
            · exact Or.inl hfc
            · have htgt : e.nextTick = target := le_antisymm hdue (not_lt.mp hfc)
              refine Or.inr ?_
              intro t ht hts
              rcases List.mem_or_eq_of_mem_set ht with hmem | rfl
              · exact htgt ▸ pickEarliest_min _ _ _ hp t hmem hts
              · show target ≤ e.nextTick + e.interval
                omega
    · rw [advanceAux_stop n c target hlt] at h
      simp only [Option.some.injEq, Prod.mk.injEq] at h
      obtain ⟨rfl, rfl⟩ := h
      rcases hstart with hlt2 | hdone
      · exact absurd hlt2 hlt
      · exact hdone

/-- C8 (amended): for every advance amount `D ≥ 0` on a clock whose
non-stopped tickers all have positive intervals, a completed `Advance`
moves `current` to `current + D`, firing non-stopped tickers one at a
time in chronological order — each firing picks a non-stopped registered
ticker whose `nextTick` is minimal among the non-stopped tickers and at
most the target, moves time to that instant, delivers the tick
non-blockingly (dropping it when one is already pending, so at most one
tick is ever pending per ticker), and reschedules the ticker by its
interval — jumping straight to the target when no non-stopped ticker is
due before it; for `D > 0`, at the end every non-stopped ticker is
rescheduled at or past the target, so every ticker due strictly before
the target has fired as often as required.  (The original claim promises
a firing for every ticker due *at or before* the target; a ticker due
exactly at the target can be skipped once another firing has moved
`current` to the target, see the counterexample.) -/
theorem C8_advance :
    (∀ (fuel : Nat) (c : MockClock) (target : Int),
      c.current < target → pickEarliest c.tickers = none →
      advanceAux (fuel + 1) c target =
        some ({ c with current := target }, [])) ∧
    (∀ (fuel : Nat) (c : MockClock) (target : Int) (i : Nat) (e : MockTicker),
      c.current < target → pickEarliest c.tickers = some (i, e) →
      target < e.nextTick →
      advanceAux (fuel + 1) c target =
        some ({ c with current := target }, [])) ∧
    (∀ (fuel : Nat) (c : MockClock) (target : Int) (i : Nat) (e : MockTicker),
      c.current < target → pickEarliest c.tickers = some (i, e) →
      e.nextTick ≤ target →
      c.tickers.get? i = some e ∧ e.stopped = false ∧
      (∀ t ∈ c.tickers, t.stopped = false → e.nextTick ≤ t.nextTick) ∧
      advanceAux (fuel + 1) c target =
        match advanceAux fuel (fireState c i e) target with
        | none => none
        | some (cf, fs) =>
          some (cf, (⟨i, e.nextTick, e.ch.isNone⟩ : Firing) :: fs)) ∧
    (∀ (fuel : Nat) (c : MockClock) (d : Int) (cf : MockClock)
        (tr : List Firing),
      0 ≤ d → (∀ t ∈ c.tickers, t.stopped = false → 0 < t.interval) →
      MockClock.Advance fuel c d = some (cf, tr) →
      cf.current = c.current + d ∧
      List.Pairwise (fun f g => f.time ≤ g.time) tr ∧
      (0 < d → ∀ t ∈ cf.tickers, t.stopped = false →
        c.current + d ≤ t.nextTick)) := by
  refine ⟨advanceAux_jump_none, advanceAux_jump_late, ?_, ?_⟩
  · intro fuel c target i e hlt hp hdue
    obtain ⟨hget, hstop⟩ := pickEarliest_mem _ _ _ hp
    exact ⟨hget, hstop, pickEarliest_min _ _ _ hp,
      advanceAux_fire fuel c target i e hlt hp hdue⟩
  · intro fuel c d cf tr hd hpos h
    refine ⟨advanceAux_current fuel c (c.current + d) cf tr (by omega) h,
      advanceAux_trace_sorted fuel c (c.current + d) cf tr h hpos, ?_⟩
    intro hdpos
    exact advanceAux_final_due fuel c (c.current + d) cf tr h hpos
      (Or.inl (by omega))

/-- C8 counterexample to the claim as stated: two tickers both due at
instant 10, the target of the advance.  The first fires and moves time
to the target, the loop exits, and the second non-stopped ticker — due
at (not after) the target — never fires: the trace contains a single
firing, of ticker 0. -/
theorem C8_counterexample :
    MockClock.Advance 3 ⟨0, [⟨10, none, 10, false⟩, ⟨10, none, 10, false⟩]⟩
        10 =
      some (⟨10, [⟨10, some 10, 20, false⟩, ⟨10, none, 10, false⟩]⟩,
        [⟨0, 10, true⟩]) ∧
    (⟨10, none, 10, false⟩ : MockTicker).stopped = false ∧
    (⟨10, none, 10, false⟩ : MockTicker).nextTick ≤ (0 : Int) + 10 ∧
    ∀ f ∈ [(⟨0, 10, true⟩ : Firing)], f.idx ≠ 1 := by
  refine ⟨by decide, rfl, by decide, ?_⟩
  intro f hf
  rw [List.mem_singleton] at hf
  subst hf
  decide

/-- Witness for C8 at a concrete advance: one ticker of interval 2 fires
at 2 (delivered) and at 4 (dropped: the first tick is still pending),
then time jumps to the target 5. -/
theorem C8_advance_witness :
    (0 : Int) ≤ 5 ∧
    MockClock.Advance 3 ⟨0, [⟨2, none, 2, false⟩]⟩ 5 =
      some (⟨5, [⟨2, some 2, 6, false⟩]⟩,
        [⟨0, 2, true⟩, ⟨0, 4, false⟩]) ∧
    MockClock.current ⟨5, [⟨2, some 2, 6, false⟩]⟩ = 0 + 5 :=
  ⟨by decide, by decide,
   (C8_advance.2.2.2 3 ⟨0, [⟨2, none, 2, false⟩]⟩ 5
      ⟨5, [⟨2, some 2, 6, false⟩]⟩ [⟨0, 2, true⟩, ⟨0, 4, false⟩]
      (by decide) (by decide) (by decide)).1⟩

/-- Number of firings a ticker can still perform at or before the
target: the termination measure of one ticker. -/
def tickerFuel (target : Int) (t : MockTicker) : Nat :=
  if t.stopped then 0
  else if target < t.nextTick then 0
  else (target - t.nextTick).toNat / t.interval.toNat + 1

/-- Total number of firings the `Advance` loop can still perform: the
termination measure of the whole clock. -/
def clockFuel (target : Int) (c : MockClock) : Nat :=
  (c.tickers.map (tickerFuel target)).sum

/-- Helper: replacing one list element trades its measure contribution. -/
theorem sum_map_set (f : MockTicker → Nat) :
    ∀ (l : List MockTicker) (i : Nat) (e e2 : MockTicker),
      l.get? i = some e →
      ((l.set i e2).map f).sum + f e = (l.map f).sum + f e2 := by
  intro l
  induction l with
  | nil => intro i e e2 h; simp at h
  | cons a l ih =>
    intro i e e2 h
    cases i with
    | zero =>
      have ha : a = e := by simpa using h
      subst ha
      simp only [List.set, List.map_cons, List.sum_cons]
      omega
    | succ i =>
      have h2 : l.get? i = some e := by simpa using h
      have h3 := ih i e e2 h2
      simp only [List.set, List.map_cons, List.sum_cons]
      omega

/-- Helper: firing a due, non-stopped, positive-interval ticker strictly
decreases its measure. -/
theorem tickerFuel_fire (target : Int) (e : MockTicker)
    (hstop : e.stopped = false) (hdue : e.nextTick ≤ target)
    (hip : 0 < e.interval) :
    tickerFuel target
        { e with
          ch := if e.ch.isNone then some e.nextTick else e.ch
          nextTick := e.nextTick + e.interval } + 1 ≤ tickerFuel target e := by
  have he : tickerFuel target e =
      (target - e.nextTick).toNat / e.interval.toNat + 1 := by
    rw [tickerFuel, if_neg (by simp [hstop]), if_neg (not_lt.mpr hdue)]
  by_cases hlate2 : target < e.nextTick + e.interval
  · have h2 : tickerFuel target
        { e with
          ch := if e.ch.isNone then some e.nextTick else e.ch
          nextTick := e.nextTick + e.interval } = 0 := by
      rw [tickerFuel, if_neg (by simp [hstop])]
      rw [if_pos hlate2]
    rw [he, h2]
    exact Nat.succ_le_succ (Nat.zero_le _)
  · have h2 : tickerFuel target
        { e with
          ch := if e.ch.isNone then some e.nextTick else e.ch
          nextTick := e.nextTick + e.interval } =
        (target - (e.nextTick + e.interval)).toNat / e.interval.toNat + 1 := by
      rw [tickerFuel, if_neg (by simp [hstop])]
      rw [if_neg hlate2]
    have hiN : 0 < e.interval.toNat := by omega
    have ha : (target - e.nextTick).toNat =
        (target - (e.nextTick + e.interval)).toNat + e.interval.toNat := by
      omega
    rw [he, h2, ha, Nat.add_div_right _ hiN]

/-- Helper: firing strictly decreases the clock measure. -/
theorem clockFuel_fire (target : Int) (c : MockClock) (i : Nat)
    (e : MockTicker) (hget : c.tickers.get? i = some e)
    (hstop : e.stopped = false) (hdue : e.nextTick ≤ target)
    (hip : 0 < e.interval) :
    clockFuel target (fireState c i e) + 1 ≤ clockFuel target c := by
  have hsum := sum_map_set (tickerFuel target) c.tickers i e
    { e with
      ch := if e.ch.isNone then some e.nextTick else e.ch
      nextTick := e.nextTick + e.interval } hget
  have hdec := tickerFuel_fire target e hstop hdue hip
  simp only [clockFuel, fireState]
  omega

/-- Helper: `clockFuel target c + 1` units of fuel always complete the
`Advance` loop when every non-stopped ticker has a positive interval. -/
theorem advanceAux_isSome :
    ∀ (n : Nat) (c : MockClock) (target : Int),
      (∀ t ∈ c.tickers, t.stopped = false → 0 < t.interval) →
      clockFuel target c ≤ n →
      (advanceAux (n + 1) c target).isSome = true := by
  intro n
  induction n with
  | zero =>
    intro c target hpos hfc
    by_cases hlt : c.current < target
    · cases hp : pickEarliest c.tickers with
      | none => rw [advanceAux_jump_none 0 c target hlt hp]; rfl
      | some ie =>
        obtain ⟨i, e⟩ := ie
        by_cases hlate : target < e.nextTick
        · rw [advanceAux_jump_late 0 c target i e hlt hp hlate]; rfl
        · obtain ⟨hget, hstop⟩ := pickEarliest_mem _ _ _ hp
          have hemem := List.get?_mem hget
          have hip := hpos e hemem hstop
          have h1 : 1 ≤ tickerFuel target e := by
            rw [tickerFuel, if_neg (by simp [hstop]), if_neg hlate]
            exact Nat.succ_le_succ (Nat.zero_le _)
          have h2 : tickerFuel target e ≤ clockFuel target c :=
            List.single_le_sum (fun x _ => Nat.zero_le x) _
              (List.mem_map_of_mem (tickerFuel target) hemem)
          omega
    · rw [advanceAux_stop 0 c target hlt]; rfl
  | succ m ih =>
    intro c target hpos hfc
    by_cases hlt : c.current < target
    · cases hp : pickEarliest c.tickers with
      | none => rw [advanceAux_jump_none (m + 1) c target hlt hp]; rfl
      | some ie =>
        obtain ⟨i, e⟩ := ie
        by_cases hlate : target < e.nextTick
        · rw [advanceAux_jump_late (m + 1) c target i e hlt hp hlate]; rfl
        · have hdue := not_lt.mp hlate
          obtain ⟨hget, hstop⟩ := pickEarliest_mem _ _ _ hp
          have hemem := List.get?_mem hget
          have hip := hpos e hemem hstop
          rw [advanceAux_fire (m + 1) c target i e hlt hp hdue]
          have hdec := clockFuel_fire target c i e hget hstop hdue hip
          have hrec := ih (fireState c i e) target
            (fireState_pos c i e hget hpos) (by omega)
          cases hx : advanceAux (m + 1) (fireState c i e) target with
          | none => rw [hx] at hrec; simp at hrec
          | some pr =>
            obtain ⟨cf, fs⟩ := pr
            rfl
    · rw [advanceAux_stop (m + 1) c target hlt]; rfl

/-- C10: whenever every registered non-stopped ticker has a strictly
positive interval, the `Advance` loop terminates for every advance
amount: each firing strictly increases the fired ticker rescheduled
`nextTick` (strictly decreasing the remaining-firings measure), so some
finite fuel completes the loop. -/
theorem C10_advance_terminates (c : MockClock) (d : Int)
    (hpos : ∀ t ∈ c.tickers, t.stopped = false → 0 < t.interval) :
    ∃ fuel cf tr, MockClock.Advance fuel c d = some (cf, tr) := by
  have h := advanceAux_isSome (clockFuel (c.current + d) c) c (c.current + d)
    hpos (le_refl _)
  cases hx : advanceAux (clockFuel (c.current + d) c + 1) c (c.current + d) with
  | none => rw [hx] at h; simp at h
  | some pr =>
    obtain ⟨cf, tr⟩ := pr
    exact ⟨clockFuel (c.current + d) c + 1, cf, tr, hx⟩

/-- Witness for C10 at a concrete single-ticker clock. -/
theorem C10_advance_terminates_witness :
    (∀ t ∈ ([⟨2, none, 2, false⟩] : List MockTicker), t.stopped = false →
        0 < t.interval) ∧
      ∃ fuel cf tr,
        MockClock.Advance fuel ⟨0, [⟨2, none, 2, false⟩]⟩ 5 = some (cf, tr) :=
  ⟨by decide, C10_advance_terminates ⟨0, [⟨2, none, 2, false⟩]⟩ 5 (by decide)⟩

end Pomo
